import Mathlib

/-!
Verification of the nanowire-network construction and circuit-solving code in
`randomnwn/nanowires.py`.

The Python code is shallowly embedded: Python dictionaries (including the
networkx node/edge attribute dictionaries and the scipy `dok_matrix`) become
association lists over decidable keys, Python floats become rationals, and
Python exceptions become explicit error values.  The shapely geometric
primitives (`LineString.intersects`, `LineString.intersection`, `centroid`)
and the scipy sparse direct solver are foreign functions to this module and
are modelled as parameters (`Geom`, `spsolve`).
-/

namespace RandomNWN

/-- Python runtime errors relevant to the embedded code. -/
inductive PyErr where
  /-- `TypeError`, e.g. calling a function with the wrong number of arguments. -/
  | typeError
  /-- `ZeroDivisionError`. -/
  | zeroDivision
  /-- `ValueError`, raised by `add_wires` on mismatched input lengths. -/
  | valueError
deriving DecidableEq, Repr

deriving instance DecidableEq for Except

/-- Division as Python performs it: `a / b` raises `ZeroDivisionError` when `b = 0`. -/
def pydiv (a b : ℚ) : Except PyErr ℚ :=
  if b = 0 then Except.error PyErr.zeroDivision else Except.ok (a / b)

/-- Setting `d[k] = v` on a Python dict: the first binding of `k` is updated in
place (insertion order is kept), otherwise the binding is appended at the end.
The dictionaries built in this development never hold a key twice. -/
def py_dict_set {K V : Type} [DecidableEq K] : List (K × V) → K → V → List (K × V)
  | [], k, v => [(k, v)]
  | e :: rest, k, v => if e.1 = k then (k, v) :: rest else e :: py_dict_set rest k v

/-- Reading `d[k]` from a Python dict, as an `Option`. -/
def py_dict_get? {K V : Type} [DecidableEq K] (d : List (K × V)) (k : K) : Option V :=
  (d.find? (fun e => decide (e.1 = k))).map (fun e => e.2)

/-- `other.update(d)` on a Python dict: set every binding of `d` in turn. -/
def py_dict_update {K V : Type} [DecidableEq K] (d other : List (K × V)) : List (K × V) :=
  other.foldl (fun acc kv => py_dict_set acc kv.1 kv.2) d

/-- The geometric primitives the Python code takes from shapely, as an abstract
interface: `intersects` is the boolean intersection test on line strings,
`intersection` the intersection point, and `centroid` the midpoint. -/
structure Geom (L P : Type) where
  intersects : L → L → Bool
  intersection : L → L → P
  centroid : L → P

/-- A wire: a node of the networkx graph with its attribute dictionary
(`line`, `midpoint`, `electrode`). -/
structure Wire (L P : Type) where
  line : L
  midpoint : P
  electrode : Bool
deriving DecidableEq

/-- A nanowire network: the networkx graph of `create_NWN` with its graph
attributes, node dictionary and edge dictionary.  Node keys are wire indices;
edge keys are the index pairs produced by the intersection finders; the edge
attribute is the junction resistance. -/
structure NWN (L P : Type) where
  wire_length : ℚ
  width : ℚ
  size : ℚ
  wire_density : ℚ
  wire_num : ℕ
  electrodes : ℕ
  junction_resistance : ℚ
  electrode_list : List ℕ
  nodes : List (ℕ × Wire L P)
  edges : List ((ℕ × ℕ) × ℚ)
  loc : List ((ℕ × ℕ) × P)
  junction_density : ℚ
deriving DecidableEq

/-- `np.triu_indices(n, k=1)` zipped: all pairs `(i, j)` with `i < j < n`,
in row-major order. -/
def triu_pairs (n : ℕ) : List (ℕ × ℕ) :=
  (List.range n).flatMap (fun i => ((List.range n).filter (fun j => decide (i < j))).map (fun j => (i, j)))

/-- `find_intersects(lines)`: for every upper-triangular index pair, test the
two line strings for intersection and record the intersection point under the
key `(i, j)`.  The returned dict maps index pairs to intersection points. -/
def find_intersects {L P : Type} (g : Geom L P) (lines : List L) : List ((ℕ × ℕ) × P) :=
  (triu_pairs lines.length).foldl (fun out p =>
    match lines.get? p.1, lines.get? p.2 with
    | some a, some b =>
        if g.intersects a b then py_dict_set out (p.1, p.2) (g.intersection a b) else out
    | _, _ => out) []

/-- `find_line_intersects(ind, lines)`: intersections of the line at index
`ind` against every other line in the list, the key stored as
`(ind, j)` when `ind < j` and `(j, ind)` otherwise. -/
def find_line_intersects {L P : Type} (g : Geom L P) (ind : ℕ) (lines : List L) : List ((ℕ × ℕ) × P) :=
  (List.range lines.length).foldl (fun out j =>
    if ind = j then out
    else
      match lines.get? ind, lines.get? j with
      | some a, some b =>
          if g.intersects a b then
            if ind < j then py_dict_set out (ind, j) (g.intersection a b)
            else py_dict_set out (j, ind) (g.intersection a b)
          else out
      | _, _ => out) []

/-- Python's built-in `round` on an exact value: round to the nearest integer,
ties to the even integer (banker's rounding). -/
def pyround (q : ℚ) : ℤ :=
  if q - ⌊q⌋ < 1 / 2 then ⌊q⌋
  else if 1 / 2 < q - ⌊q⌋ then ⌊q⌋ + 1
  else if 2 ∣ ⌊q⌋ then ⌊q⌋ else ⌊q⌋ + 1

/-- `Graph.add_edge(u, v, resistance=r)` of networkx on an undirected graph:
if the unordered pair is already an edge its attribute is updated (the stored
orientation is kept), otherwise the edge is appended. -/
def nx_add_edge : List ((ℕ × ℕ) × ℚ) → ℕ × ℕ → ℚ → List ((ℕ × ℕ) × ℚ)
  | [], k, r => [(k, r)]
  | e :: rest, k, r =>
      if e.1 = k ∨ e.1 = (k.2, k.1) then (e.1, r) :: rest else e :: nx_add_edge rest k r

/-- `Graph.add_edges_from(keys, resistance=r)`. -/
def nx_add_edges_from (edges : List ((ℕ × ℕ) × ℚ)) (keys : List (ℕ × ℕ)) (r : ℚ) :
    List ((ℕ × ℕ) × ℚ) :=
  keys.foldl (fun es k => nx_add_edge es k r) edges

/-- `Graph.get_edge_data(i, j)`: the attribute of the undirected edge between
`i` and `j`, in whichever orientation it is stored, if present. -/
def get_edge_data {L P : Type} (net : NWN L P) (i j : ℕ) : Option ℚ :=
  (net.edges.find? (fun e => decide (e.1 = (i, j) ∨ e.1 = (j, i)))).map (fun e => e.2)

/-- The resistances of the edges incident to node `i`, in edge-dict order:
what `[NWN[e[0]][e[1]]["resistance"] for e in NWN.edges(i)]` iterates over. -/
def incident_resistances {L P : Type} (net : NWN L P) (i : ℕ) : List ℚ :=
  net.edges.filterMap (fun e => if e.1.1 = i ∨ e.1.2 = i then some e.2 else none)

/-- `create_NWN(wire_length, width, density, seed, resistance)`.  The seeded
random generator is abstracted by `mkLine`, the stream of lines that
`create_line` draws from it. -/
def create_NWN {L P : Type} (g : Geom L P) (mkLine : ℕ → L)
    (wire_length width density resistance : ℚ) : NWN L P :=
  let size := width * width
  let wire_num := (pyround (size * density)).toNat
  let density2 := (wire_num : ℚ) / size
  let nodes := (List.range wire_num).map
    (fun i => (i, ({ line := mkLine i, midpoint := g.centroid (mkLine i), electrode := false } : Wire L P)))
  let intersect_dict := find_intersects g (nodes.map (fun e => e.2.line))
  { wire_length := wire_length
    width := width
    size := size
    wire_density := density2
    wire_num := wire_num
    electrodes := 0
    junction_resistance := resistance
    electrode_list := []
    nodes := nodes
    edges := nx_add_edges_from [] (intersect_dict.map (fun e => e.1)) resistance
    loc := intersect_dict
    junction_density := (intersect_dict.length : ℚ) / size }

/-- One iteration of the `for i in range(new_wire_num)` loop of `add_wires`:
add the node with key `start_ind + i`, append to the electrode list when
flagged, find the new wire's intersections and add the junctions and their
locations. -/
def add_wire_step {L P : Type} (g : Geom L P) (start_ind : ℕ) (acc : NWN L P)
    (p : ℕ × (L × Bool)) : NWN L P :=
  let i := p.1
  let line := p.2.1
  let elec := p.2.2
  let acc1 := { acc with
    nodes := py_dict_set acc.nodes (start_ind + i)
      { line := line, midpoint := g.centroid line, electrode := elec } }
  let acc2 : NWN L P :=
    if elec then { acc1 with electrode_list := acc1.electrode_list ++ [start_ind + i] } else acc1
  let intersect_dict : List ((ℕ × ℕ) × P) :=
    find_line_intersects g (start_ind + i)
      (acc2.nodes.map (fun (e : ℕ × Wire L P) => e.2.line))
  let acc3 := { acc2 with
    edges := nx_add_edges_from acc2.edges
      (intersect_dict.map (fun (e : (ℕ × ℕ) × P) => e.1)) acc2.junction_resistance }
  { acc3 with loc := py_dict_update acc3.loc intersect_dict }

/-- `add_wires(NWN, lines, electrodes)`.  The Python function mutates the
graph in place; here it returns the resulting network together with the raised
error, if any: on a length mismatch the `ValueError` is raised before any
mutation, so the network is returned as it was. -/
def add_wires {L P : Type} (g : Geom L P) (net : NWN L P) (lines : List L)
    (electrodes : List Bool) : NWN L P × Option PyErr :=
  let new_wire_num := lines.length
  if new_wire_num ≠ electrodes.length then (net, some PyErr.valueError)
  else
    let start_ind := net.wire_num
    let net1 := { net with
      wire_num := net.wire_num + new_wire_num
      electrodes := net.electrodes + electrodes.countP (fun b => b) }
    let net2 := ((lines.zip electrodes).enum).foldl (add_wire_step g start_ind) net1
    ({ net2 with
        wire_density := ((net2.wire_num : ℚ) - (net2.electrodes : ℚ)) / net2.size }, none)

/-- A scipy `dok_matrix`: a dictionary keyed by `(row, column)`. -/
abbrev Dok : Type := List ((ℕ × ℕ) × ℚ)

/-- Reading an entry of a `dok_matrix`: unset entries are `0`. -/
def dokGet (d : Dok) (k : ℕ × ℕ) : ℚ :=
  match py_dict_get? d k with
  | some v => v
  | none => 0

/-- The body of the inner `for j in range(wire_num)` loop of
`conductance_matrix`. -/
def cm_inner_step {L P : Type} (net : NWN L P) (drain_node i : ℕ) (G : Dok) (j : ℕ) : Dok :=
  if i = j then
    if i = drain_node then
      py_dict_set G (i, j) 1
    else
      py_dict_set G (i, j)
        ((((incident_resistances net i).filter (fun r => decide (r ≠ 0))).map (fun r => 1 / r)).sum
          + 1 / 100000000)
  else
    if i ≠ drain_node then
      match get_edge_data net i j with
      | some r => py_dict_set G (i, j) (-1 / r)
      | none => G
    else G

/-- The body of the outer `for i in range(wire_num)` loop of
`conductance_matrix`. -/
def cm_outer_step {L P : Type} (net : NWN L P) (drain_node : ℕ) (G : Dok) (i : ℕ) : Dok :=
  (List.range net.wire_num).foldl (cm_inner_step net drain_node i) G

/-- `conductance_matrix(NWN, drain_node)`, with every Python division replaced
by total division on `ℚ`.  `conductance_matrixE` below performs the same
computation with Python's division semantics; whenever it succeeds it returns
exactly this matrix. -/
def conductance_matrix {L P : Type} (net : NWN L P) (drain_node : ℕ) : Dok :=
  (List.range net.wire_num).foldl (cm_outer_step net drain_node) []

/-- The body of the inner loop of `conductance_matrix` with Python's division:
`1 / resistance` and `-1 / resistance` raise `ZeroDivisionError` on a
zero divisor. -/
def cm_inner_stepE {L P : Type} (net : NWN L P) (drain_node i : ℕ) (G : Dok) (j : ℕ) :
    Except PyErr Dok :=
  if i = j then
    if i = drain_node then
      Except.ok (py_dict_set G (i, j) 1)
    else do
      let terms ← ((incident_resistances net i).filter (fun r => decide (r ≠ 0))).mapM
        (fun r => pydiv 1 r)
      Except.ok (py_dict_set G (i, j) (terms.sum + 1 / 100000000))
  else
    if i ≠ drain_node then
      match get_edge_data net i j with
      | some r => do
          let v ← pydiv (-1) r
          Except.ok (py_dict_set G (i, j) v)
      | none => Except.ok G
    else Except.ok G

/-- The outer loop of `conductance_matrix` with Python's division. -/
def cm_outer_stepE {L P : Type} (net : NWN L P) (drain_node : ℕ) (G : Dok) (i : ℕ) :
    Except PyErr Dok :=
  (List.range net.wire_num).foldlM (cm_inner_stepE net drain_node i) G

/-- `conductance_matrix(NWN, drain_node)` with Python's division semantics. -/
def conductance_matrixE {L P : Type} (net : NWN L P) (drain_node : ℕ) : Except PyErr Dok :=
  (List.range net.wire_num).foldlM (cm_outer_stepE net drain_node) []

/-- The number of parameters of `def conductance_matrix(NWN, drain_node)`. -/
def conductance_matrix_paramcount : ℕ := 2

/-- The number of arguments `solve_network` passes in
`conductance_matrix(NWN, source_node, drain_node)`. -/
def conductance_matrix_argcount_in_solve : ℕ := 3

/-- `-B.T` for a one-column `dok_matrix` `B`. -/
def dok_neg_transpose (B : Dok) : Dok :=
  B.map (fun e => ((e.1.2, e.1.1), -e.2))

/-- `scipy.sparse.bmat([[G, B], [C, None]])` for `G` of shape `(n, n)`,
`B` of shape `(n, 1)` and `C` of shape `(1, n)`. -/
def dok_bmat (G B C : Dok) (n : ℕ) : Dok :=
  G ++ B.map (fun e => ((e.1.1, n), e.2)) ++ C.map (fun e => ((n, e.1.2), e.2))

/-- `solve_network(NWN, source_node, drain_node, voltage)`.  The scipy direct
solver is abstracted by `spsolve`.  Python resolves the arity of the call
`conductance_matrix(NWN, source_node, drain_node)` at run time: since that
function takes two parameters, the call raises `TypeError` and the rest of the
body never runs. -/
def solve_network {L P : Type} (spsolve : Dok → Dok → List ℚ) (net : NWN L P)
    (source_node drain_node : ℕ) (voltage : ℚ) : Except PyErr (List ℚ) :=
  let wire_num := net.wire_num
  if conductance_matrix_argcount_in_solve = conductance_matrix_paramcount then
    let G := conductance_matrix net drain_node
    let B := py_dict_set ([] : Dok) (source_node, 0) (-1)
    let C := dok_neg_transpose B
    let A := dok_bmat G B C wire_num
    let z := py_dict_set ([] : Dok) (wire_num, 0) voltage
    Except.ok (spsolve A z)
  else
    Except.error PyErr.typeError

/-- Running a sequence of `add_wires` calls; `none` as soon as one raises. -/
def applyWires {L P : Type} (g : Geom L P) :
    NWN L P → List (List L × List Bool) → Option (NWN L P)
  | net, [] => some net
  | net, b :: bs =>
      match add_wires g net b.1 b.2 with
      | (net', none) => applyWires g net' bs
      | (_, some _) => none

/-! ### Dictionary lemmas -/

theorem py_dict_get?_set {K V : Type} [DecidableEq K] (d : List (K × V)) (k k' : K) (v : V) :
    py_dict_get? (py_dict_set d k v) k' = if k' = k then some v else py_dict_get? d k' := by
  induction d with
  | nil =>
      by_cases h : k' = k <;> simp [py_dict_set, py_dict_get?, List.find?, h, Ne.symm]
  | cons e rest ih =>
      by_cases he : e.1 = k
      · by_cases h : k' = k
        · simp [py_dict_set, py_dict_get?, he, h, List.find?]
        · simp only [py_dict_set, he, if_pos]
          have h2 : ¬(k = k') := fun hh => h hh.symm
          have h3 : ¬(e.1 = k') := by rw [he]; exact h2
          simp [py_dict_get?, List.find?, h, h2, h3]
      · by_cases hk : e.1 = k'
        · have h : ¬(k' = k) := fun hh => he (hk.trans hh)
          simp [py_dict_set, py_dict_get?, he, hk, h, List.find?]
        · simp only [py_dict_set, if_neg he]
          simp only [py_dict_get?, List.find?, decide_eq_true_eq, hk] at *
          simpa [hk] using ih

theorem py_dict_set_eq_append {K V : Type} [DecidableEq K] {d : List (K × V)} {k : K}
    (h : ∀ e ∈ d, e.1 ≠ k) (v : V) :
    py_dict_set d k v = d ++ [(k, v)] := by
  induction d with
  | nil => simp [py_dict_set]
  | cons e rest ih =>
      have he : e.1 ≠ k := h e (by simp)
      simp only [py_dict_set, if_neg he, List.cons_append, List.cons.injEq, true_and]
      exact ih (fun e' he' => h e' (by simp [he']))

theorem keys_py_dict_set {K V : Type} [DecidableEq K] (d : List (K × V)) (k : K) (v : V) :
    (py_dict_set d k v).map Prod.fst = d.map Prod.fst ∨
      (py_dict_set d k v).map Prod.fst = d.map Prod.fst ++ [k] := by
  induction d with
  | nil => right; simp [py_dict_set]
  | cons e rest ih =>
      by_cases he : e.1 = k
      · left; simp [py_dict_set, he]
      · rcases ih with h | h
        · left; simp [py_dict_set, he, h]
        · right; simp [py_dict_set, he, h]

theorem keys_nodup_py_dict_set {K V : Type} [DecidableEq K] {d : List (K × V)} {k : K} {v : V}
    (h : (d.map Prod.fst).Nodup) : ((py_dict_set d k v).map Prod.fst).Nodup := by
  induction d with
  | nil => simp [py_dict_set]
  | cons e rest ih =>
      by_cases he : e.1 = k
      · simpa [py_dict_set, he] using h
      · simp only [List.map_cons, List.nodup_cons] at h
        have hk : e.1 ∉ (py_dict_set rest k v).map Prod.fst := by
          rcases keys_py_dict_set rest k v with hh | hh <;> rw [hh]
          · exact h.1
          · simp only [List.mem_append, List.mem_singleton]
            rintro (hc | hc)
            · exact h.1 hc
            · exact he hc
        simp only [py_dict_set, if_neg he, List.map_cons, List.nodup_cons]
        exact ⟨hk, ih h.2⟩

theorem keys_prop_py_dict_set {K V : Type} [DecidableEq K] {d : List (K × V)} {k : K} {v : V}
    {Q : K → Prop} (h : ∀ k' ∈ d.map Prod.fst, Q k') (hk : Q k) :
    ∀ k' ∈ (py_dict_set d k v).map Prod.fst, Q k' := by
  intro k' hk'
  rcases keys_py_dict_set d k v with hh | hh <;> rw [hh] at hk'
  · exact h k' hk'
  · rcases List.mem_append.1 hk' with hc | hc
    · exact h k' hc
    · simp only [List.mem_singleton] at hc
      exact hc ▸ hk

/-! ### Generic lemmas about dictionary-building folds -/

/-- The common shape of the loop bodies of `find_intersects` and
`find_line_intersects`: compute an optional key/value pair and insert it. -/
def dict_fold_body {K V α : Type} [DecidableEq K] (f : α → Option (K × V))
    (out : List (K × V)) (x : α) : List (K × V) :=
  match f x with
  | some kv => py_dict_set out kv.1 kv.2
  | none => out

theorem keys_nodup_dict_fold {K V α : Type} [DecidableEq K] (f : α → Option (K × V))
    (xs : List α) :
    ∀ out : List (K × V), (out.map Prod.fst).Nodup →
      ((xs.foldl (dict_fold_body f) out).map Prod.fst).Nodup := by
  induction xs with
  | nil => intro out h; simpa using h
  | cons x rest ih =>
      intro out h
      simp only [List.foldl_cons]
      apply ih
      unfold dict_fold_body
      cases f x with
      | none => exact h
      | some kv => exact keys_nodup_py_dict_set h

theorem keys_prop_dict_fold {K V α : Type} [DecidableEq K] (f : α → Option (K × V))
    (xs : List α) (Q : K → Prop) (hf : ∀ x ∈ xs, ∀ kv, f x = some kv → Q kv.1) :
    ∀ out : List (K × V), (∀ k ∈ out.map Prod.fst, Q k) →
      ∀ k ∈ (xs.foldl (dict_fold_body f) out).map Prod.fst, Q k := by
  induction xs with
  | nil => intro out h; simpa using h
  | cons x rest ih =>
      intro out h
      simp only [List.foldl_cons]
      apply ih (fun y hy kv hkv => hf y (by simp [hy]) kv hkv)
      unfold dict_fold_body
      cases hx : f x with
      | none => exact h
      | some kv => exact keys_prop_py_dict_set h (hf x (by simp) kv hx)

theorem dict_fold_eq_filterMap {K V α : Type} [DecidableEq K] {f : α → Option (K × V)}
    (xs : List α) :
    xs.Pairwise (fun x y => ∀ kv kv', f x = some kv → f y = some kv' → kv.1 ≠ kv'.1) →
    ∀ out : List (K × V), (∀ x ∈ xs, ∀ kv, f x = some kv → ∀ e ∈ out, e.1 ≠ kv.1) →
      xs.foldl (dict_fold_body f) out = out ++ xs.filterMap f := by
  induction xs with
  | nil => intro _ out _; simp
  | cons x rest ih =>
      intro hpair out hfresh
      simp only [List.foldl_cons]
      rcases List.pairwise_cons.1 hpair with ⟨hx, hrest⟩
      cases hf : f x with
      | none =>
          rw [show dict_fold_body f out x = out by simp [dict_fold_body, hf]]
          rw [ih hrest out (fun y hy kv hkv e he => hfresh y (by simp [hy]) kv hkv e he)]
          simp [List.filterMap_cons, hf]
      | some kv =>
          have hb : dict_fold_body f out x = out ++ [kv] := by
            simp only [dict_fold_body, hf]
            rw [py_dict_set_eq_append (fun e he => hfresh x (by simp) kv hf e he) kv.2]
          have hfresh2 : ∀ y ∈ rest, ∀ kv', f y = some kv' → ∀ e ∈ out ++ [kv], e.1 ≠ kv'.1 := by
            intro y hy kv' hkv' e he
            rcases List.mem_append.1 he with hc | hc
            · exact hfresh y (by simp [hy]) kv' hkv' e hc
            · simp only [List.mem_singleton] at hc
              rw [hc]
              exact hx y hy kv kv' hf hkv'
          rw [hb, ih hrest (out ++ [kv]) hfresh2]
          simp [List.filterMap_cons, hf]

/-! ### The two intersection finders as filterMaps -/

/-- What one iteration of `find_intersects` contributes for the pair `p`. -/
def fi_f {L P : Type} (g : Geom L P) (lines : List L) (p : ℕ × ℕ) : Option ((ℕ × ℕ) × P) :=
  match lines.get? p.1, lines.get? p.2 with
  | some a, some b => if g.intersects a b then some ((p.1, p.2), g.intersection a b) else none
  | _, _ => none

/-- What one iteration of `find_line_intersects` contributes for the index `j`. -/
def fli_f {L P : Type} (g : Geom L P) (ind : ℕ) (lines : List L) (j : ℕ) :
    Option ((ℕ × ℕ) × P) :=
  if ind = j then none
  else
    match lines.get? ind, lines.get? j with
    | some a, some b =>
        if g.intersects a b then
          some ((if ind < j then (ind, j) else (j, ind)), g.intersection a b)
        else none
    | _, _ => none

theorem find_intersects_eq_fold {L P : Type} (g : Geom L P) (lines : List L) :
    find_intersects g lines =
      (triu_pairs lines.length).foldl (dict_fold_body (fi_f g lines)) [] := by
  unfold find_intersects
  apply List.foldl_ext
  intro out p _
  unfold dict_fold_body fi_f
  cases h1 : lines.get? p.1 <;> cases h2 : lines.get? p.2 <;> simp
  split <;> simp

theorem find_line_intersects_eq_fold {L P : Type} (g : Geom L P) (ind : ℕ) (lines : List L) :
    find_line_intersects g ind lines =
      (List.range lines.length).foldl (dict_fold_body (fli_f g ind lines)) [] := by
  unfold find_line_intersects
  apply List.foldl_ext
  intro out j _
  unfold dict_fold_body fli_f
  by_cases hij : ind = j
  · simp [hij]
  · simp only [if_neg hij]
    cases h1 : lines.get? ind <;> cases h2 : lines.get? j <;> simp
    split
    · split <;> simp
    · simp

theorem mem_triu_pairs {n : ℕ} {p : ℕ × ℕ} :
    p ∈ triu_pairs n ↔ p.1 < p.2 ∧ p.2 < n := by
  constructor
  · intro h
    simp only [triu_pairs, List.mem_flatMap, List.mem_map, List.mem_filter,
      List.mem_range, decide_eq_true_eq] at h
    rcases h with ⟨i, _, j, ⟨hj, hij⟩, rfl⟩
    exact ⟨hij, hj⟩
  · rintro ⟨h1, h2⟩
    simp only [triu_pairs, List.mem_flatMap, List.mem_map, List.mem_filter,
      List.mem_range, decide_eq_true_eq]
    exact ⟨p.1, lt_trans h1 h2, p.2, ⟨h2, h1⟩, rfl⟩

theorem triu_pairs_nodup (n : ℕ) : (triu_pairs n).Nodup := by
  unfold triu_pairs
  rw [List.nodup_flatMap]
  constructor
  · intro i _
    exact ((List.nodup_range n).filter _).map (fun a b h => by simpa using congrArg Prod.snd h)
  · apply List.Pairwise.imp ?_ (List.nodup_range n)
    intro i j hij
    simp only [List.Disjoint]
    intro p hp hq
    simp only [List.mem_map, List.mem_filter] at hp hq
    rcases hp with ⟨a, _, rfl⟩
    rcases hq with ⟨b, _, hb⟩
    have hfst := congrArg Prod.fst hb
    simp only at hfst
    exact hij hfst.symm

theorem fi_f_eq_of_get {L P : Type} (g : Geom L P) {lines : List L} {p : ℕ × ℕ} {a b : L}
    (ha : lines.get? p.1 = some a) (hb : lines.get? p.2 = some b) :
    fi_f g lines p =
      if g.intersects a b then some ((p.1, p.2), g.intersection a b) else none := by
  unfold fi_f
  rw [ha, hb]

theorem fli_f_eq_of_get {L P : Type} (g : Geom L P) {ind : ℕ} {lines : List L} {j : ℕ}
    {a b : L} (hij : ind ≠ j) (ha : lines.get? ind = some a) (hb : lines.get? j = some b) :
    fli_f g ind lines j =
      if g.intersects a b then
        some ((if ind < j then (ind, j) else (j, ind)), g.intersection a b)
      else none := by
  unfold fli_f
  rw [if_neg hij, ha, hb]

theorem fi_f_key {L P : Type} {g : Geom L P} {lines : List L} {p : ℕ × ℕ}
    {kv : (ℕ × ℕ) × P} (h : fi_f g lines p = some kv) : kv.1 = p := by
  cases h1 : lines.get? p.1 with
  | none => unfold fi_f at h; rw [h1] at h; cases lines.get? p.2 <;> simp at h
  | some a =>
      cases h2 : lines.get? p.2 with
      | none => unfold fi_f at h; rw [h1, h2] at h; simp at h
      | some b =>
          rw [fi_f_eq_of_get g h1 h2] at h
          by_cases hx : g.intersects a b
          · rw [if_pos hx] at h
            simp only [Option.some.injEq] at h
            rw [← h]
          · rw [if_neg hx] at h
            exact absurd h (by simp)

theorem fli_f_key {L P : Type} {g : Geom L P} {ind : ℕ} {lines : List L} {j : ℕ}
    {kv : (ℕ × ℕ) × P} (h : fli_f g ind lines j = some kv) :
    ind ≠ j ∧ kv.1 = (if ind < j then (ind, j) else (j, ind)) := by
  by_cases hij : ind = j
  · unfold fli_f at h
    rw [if_pos hij] at h
    exact absurd h (by simp)
  · refine ⟨hij, ?_⟩
    cases h1 : lines.get? ind with
    | none => unfold fli_f at h; rw [if_neg hij, h1] at h; cases lines.get? j <;> simp at h
    | some a =>
        cases h2 : lines.get? j with
        | none => unfold fli_f at h; rw [if_neg hij, h1, h2] at h; simp at h
        | some b =>
            rw [fli_f_eq_of_get g hij h1 h2] at h
            by_cases hx : g.intersects a b
            · rw [if_pos hx] at h
              simp only [Option.some.injEq] at h
              rw [← h]
            · rw [if_neg hx] at h
              exact absurd h (by simp)

theorem find_intersects_eq_filterMap {L P : Type} (g : Geom L P) (lines : List L) :
    find_intersects g lines = (triu_pairs lines.length).filterMap (fi_f g lines) := by
  rw [find_intersects_eq_fold]
  rw [dict_fold_eq_filterMap (triu_pairs lines.length) ?pair [] (by simp)]
  · simp
  case pair =>
    apply List.Pairwise.imp ?_ (triu_pairs_nodup lines.length)
    intro p q hpq kv kv' hp hq
    rw [fi_f_key hp, fi_f_key hq]
    exact hpq

theorem find_line_intersects_eq_filterMap {L P : Type} (g : Geom L P) (ind : ℕ)
    (lines : List L) :
    find_line_intersects g ind lines =
      (List.range lines.length).filterMap (fli_f g ind lines) := by
  rw [find_line_intersects_eq_fold]
  rw [dict_fold_eq_filterMap (List.range lines.length) ?pair [] (by simp)]
  · simp
  case pair =>
    apply List.Pairwise.imp ?_ (List.nodup_range lines.length)
    intro i j hij kv kv' hp hq
    rcases fli_f_key hp with ⟨hi, hk⟩
    rcases fli_f_key hq with ⟨hj, hk'⟩
    rw [hk, hk']
    intro hc
    split_ifs at hc <;> simp only [Prod.mk.injEq] at hc <;> omega

theorem mem_find_intersects {L P : Type} {g : Geom L P} {lines : List L}
    {kv : (ℕ × ℕ) × P} :
    kv ∈ find_intersects g lines ↔ ∃ p ∈ triu_pairs lines.length, fi_f g lines p = some kv := by
  rw [find_intersects_eq_filterMap]
  exact List.mem_filterMap

theorem mem_find_line_intersects {L P : Type} {g : Geom L P} {ind : ℕ} {lines : List L}
    {kv : (ℕ × ℕ) × P} :
    kv ∈ find_line_intersects g ind lines ↔
      ∃ j ∈ List.range lines.length, fli_f g ind lines j = some kv := by
  rw [find_line_intersects_eq_filterMap]
  exact List.mem_filterMap

/-- C6.  Every key produced by `find_intersects` is a strictly increasing pair
and no key is produced twice; every key produced by `find_line_intersects` is
a strictly increasing pair of the form `(min(ind, j), max(ind, j))` for some
`j ≠ ind`, and no key is produced twice. -/
theorem junction_keys_canonical {L P : Type} (g : Geom L P) (lines : List L) (ind : ℕ) :
    (∀ k ∈ (find_intersects g lines).map Prod.fst, k.1 < k.2) ∧
    ((find_intersects g lines).map Prod.fst).Nodup ∧
    (∀ k ∈ (find_line_intersects g ind lines).map Prod.fst,
        k.1 < k.2 ∧ ∃ j, j ≠ ind ∧ k = (min ind j, max ind j)) ∧
    ((find_line_intersects g ind lines).map Prod.fst).Nodup := by
  refine ⟨?_, ?_, ?_, ?_⟩
  · rw [find_intersects_eq_fold]
    refine keys_prop_dict_fold (fi_f g lines) (triu_pairs lines.length)
      (fun k : ℕ × ℕ => k.1 < k.2) ?_ [] (by simp)
    intro p hp kv hkv
    rw [fi_f_key hkv]
    exact (mem_triu_pairs.1 hp).1
  · rw [find_intersects_eq_fold]
    exact keys_nodup_dict_fold _ _ [] (by simp)
  · rw [find_line_intersects_eq_fold]
    refine keys_prop_dict_fold (fli_f g ind lines) (List.range lines.length)
      (fun k : ℕ × ℕ => k.1 < k.2 ∧ ∃ j, j ≠ ind ∧ k = (min ind j, max ind j)) ?_ [] (by simp)
    intro j _ kv hkv
    rcases fli_f_key hkv with ⟨hij, hk⟩
    rw [hk]
    by_cases h : ind < j
    · rw [if_pos h]
      exact ⟨h, j, fun hc => hij hc.symm,
        by rw [Nat.min_eq_left (le_of_lt h), Nat.max_eq_right (le_of_lt h)]⟩
    · have hj : j < ind := by omega
      rw [if_neg h]
      exact ⟨hj, j, fun hc => hij hc.symm,
        by rw [Nat.min_eq_right (le_of_lt hj), Nat.max_eq_left (le_of_lt hj)]⟩
  · rw [find_line_intersects_eq_fold]
    exact keys_nodup_dict_fold _ _ [] (by simp)

/-- A trivial concrete geometry on which every pair of lines intersects. -/
def unitGeomT : Geom Unit Unit :=
  { intersects := fun _ _ => true
    intersection := fun _ _ => ()
    centroid := fun _ => () }

/-- Witness for C6 on a concrete three-line input. -/
theorem junction_keys_canonical_witness :
    (((0, 1) : ℕ × ℕ).1 < ((0, 1) : ℕ × ℕ).2) ∧
    ((((1, 2) : ℕ × ℕ).1 < ((1, 2) : ℕ × ℕ).2) ∧
      ∃ j, j ≠ 1 ∧ ((1, 2) : ℕ × ℕ) = (min 1 j, max 1 j)) :=
  ⟨(junction_keys_canonical unitGeomT [(), (), ()] 1).1 (0, 1) (by decide),
   (junction_keys_canonical unitGeomT [(), (), ()] 1).2.2.1 (1, 2) (by decide)⟩

/-- C10.  For a valid index `ind` and a symmetric geometry, as a dictionary,
`find_line_intersects ind lines` is exactly the restriction of
`find_intersects lines` to the keys that contain `ind`. -/
theorem find_line_intersects_refines {L P : Type} (g : Geom L P) (lines : List L) (ind : ℕ)
    (hind : ind < lines.length)
    (hsym : ∀ a b, g.intersects a b = g.intersects b a)
    (hsymPt : ∀ a b, g.intersects a b = true → g.intersection a b = g.intersection b a) :
    ∀ (k : ℕ × ℕ) (p : P),
      (k, p) ∈ find_line_intersects g ind lines ↔
        ((k.1 = ind ∨ k.2 = ind) ∧ (k, p) ∈ find_intersects g lines) := by
  intro k p
  obtain ⟨a, ha⟩ : ∃ a, lines.get? ind = some a := ⟨_, List.get?_eq_get hind⟩
  rw [mem_find_line_intersects, mem_find_intersects]
  constructor
  · rintro ⟨j, hj, hfl⟩
    rw [List.mem_range] at hj
    obtain ⟨b, hb⟩ : ∃ b, lines.get? j = some b := ⟨_, List.get?_eq_get hj⟩
    by_cases hij : ind = j
    · unfold fli_f at hfl
      rw [if_pos hij] at hfl
      exact absurd hfl (by simp)
    rw [fli_f_eq_of_get g hij ha hb] at hfl
    by_cases hx : g.intersects a b
    · rw [if_pos hx] at hfl
      simp only [Option.some.injEq, Prod.mk.injEq] at hfl
      obtain ⟨hk, hp⟩ := hfl
      by_cases hlt : ind < j
      · rw [if_pos hlt] at hk
        refine ⟨Or.inl (by rw [← hk]), (ind, j), mem_triu_pairs.2 ⟨hlt, hj⟩, ?_⟩
        rw [fi_f_eq_of_get g ha hb, if_pos hx, hk, hp]
      · have hjlt : j < ind := by omega
        rw [if_neg hlt] at hk
        refine ⟨Or.inr (by rw [← hk]), (j, ind), mem_triu_pairs.2 ⟨hjlt, hind⟩, ?_⟩
        have hx' : g.intersects b a = true := by rw [hsym b a]; exact hx
        rw [fi_f_eq_of_get g hb ha, if_pos hx', hk, ← hsymPt a b hx, hp]
    · rw [if_neg hx] at hfl
      exact absurd hfl (by simp)
  · rintro ⟨hor, q, hq, hfi⟩
    rcases mem_triu_pairs.1 hq with ⟨h12, h2n⟩
    obtain ⟨a', ha'⟩ : ∃ x, lines.get? q.1 = some x := ⟨_, List.get?_eq_get (lt_trans h12 h2n)⟩
    obtain ⟨b', hb'⟩ : ∃ x, lines.get? q.2 = some x := ⟨_, List.get?_eq_get h2n⟩
    rw [fi_f_eq_of_get g ha' hb'] at hfi
    by_cases hx : g.intersects a' b'
    · rw [if_pos hx] at hfi
      simp only [Option.some.injEq, Prod.mk.injEq] at hfi
      obtain ⟨hk, hp⟩ := hfi
      have hkq : k = (q.1, q.2) := by rw [← hk]
      rcases hor with h1 | h2
      · -- k.1 = ind, so q.1 = ind and the partner index is q.2
        have hq1 : q.1 = ind := by rw [hkq] at h1; exact h1
        refine ⟨q.2, List.mem_range.2 h2n, ?_⟩
        have hij : ind ≠ q.2 := by omega
        rw [hq1] at ha'
        rw [fli_f_eq_of_get g hij ha' hb', if_pos hx, if_pos (by omega : ind < q.2)]
        rw [hkq, hq1, hp]
      · -- k.2 = ind, so q.2 = ind and the partner index is q.1
        have hq2 : q.2 = ind := by rw [hkq] at h2; exact h2
        refine ⟨q.1, List.mem_range.2 (lt_trans h12 h2n), ?_⟩
        have hij : ind ≠ q.1 := by omega
        rw [hq2] at hb'
        have hx' : g.intersects b' a' = true := by rw [hsym b' a']; exact hx
        rw [fli_f_eq_of_get g hij hb' ha', if_pos hx', if_neg (by omega : ¬ ind < q.1)]
        rw [hkq, hq2, ← hsymPt a' b' hx, hp]
    · rw [if_neg hx] at hfi
      exact absurd hfi (by simp)

/-- Witness for C10 on a concrete three-line input with the trivial geometry. -/
theorem find_line_intersects_refines_witness :
    (1 : ℕ) < ([(), (), ()] : List Unit).length ∧
      ((((0, 1) : ℕ × ℕ), ()) ∈ find_line_intersects unitGeomT 1 [(), (), ()] ↔
        ((((0, 1) : ℕ × ℕ).1 = 1 ∨ ((0, 1) : ℕ × ℕ).2 = 1) ∧
          (((0, 1) : ℕ × ℕ), ()) ∈ find_intersects unitGeomT [(), (), ()])) :=
  ⟨by decide,
   find_line_intersects_refines unitGeomT [(), (), ()] 1 (by decide)
     (fun _ _ => rfl) (fun _ _ _ => rfl) (0, 1) ()⟩

/-! ### Conductance matrix: entry characterisation -/

theorem dokGet_py_dict_set (d : Dok) (k k' : ℕ × ℕ) (v : ℚ) :
    dokGet (py_dict_set d k v) k' = if k' = k then v else dokGet d k' := by
  unfold dokGet
  rw [py_dict_get?_set]
  by_cases h : k' = k <;> simp [h]

/-- The value the `conductance_matrix` loops write at cell `(i, j)`, if any. -/
def cm_val {L P : Type} (net : NWN L P) (drain_node i j : ℕ) : Option ℚ :=
  if i = j then
    some (if i = drain_node then 1
      else (((incident_resistances net i).filter (fun r => decide (r ≠ 0))).map
          (fun r => 1 / r)).sum + 1 / 100000000)
  else if i ≠ drain_node then (get_edge_data net i j).map (fun r => -1 / r)
  else none

theorem cm_inner_step_eq {L P : Type} (net : NWN L P) (d i : ℕ) (G : Dok) (j : ℕ) :
    cm_inner_step net d i G j =
      match cm_val net d i j with
      | some v => py_dict_set G (i, j) v
      | none => G := by
  unfold cm_inner_step cm_val
  split_ifs <;> first
    | rfl
    | (cases get_edge_data net i j <;> rfl)

theorem cm_inner_get {L P : Type} (net : NWN L P) (d i : ℕ) :
    ∀ (m : ℕ) (G : Dok) (a b : ℕ),
      dokGet ((List.range m).foldl (cm_inner_step net d i) G) (a, b) =
        if a = i ∧ b < m then
          (match cm_val net d i b with
            | some v => v
            | none => dokGet G (a, b))
        else dokGet G (a, b) := by
  intro m
  induction m with
  | zero => intro G a b; simp
  | succ m ih =>
      intro G a b
      rw [List.range_succ, List.foldl_append, List.foldl_cons, List.foldl_nil, cm_inner_step_eq]
      cases hv : cm_val net d i m with
      | none =>
          rw [ih G a b]
          by_cases h1 : a = i ∧ b < m
          · rw [if_pos h1, if_pos ⟨h1.1, by omega⟩]
          · by_cases h2 : a = i ∧ b < m + 1
            · have hbm : b = m := by omega
              rw [if_neg h1, if_pos h2, hbm, hv]
            · rw [if_neg h1, if_neg h2]
      | some v =>
          rw [dokGet_py_dict_set]
          by_cases h0 : ((a, b) : ℕ × ℕ) = (i, m)
          · simp only [Prod.mk.injEq] at h0
            obtain ⟨ha, hbm⟩ := h0
            rw [if_pos (by simp [ha, hbm]), if_pos ⟨ha, by omega⟩, hbm, hv]
          · rw [if_neg h0, ih G a b]
            by_cases h1 : a = i ∧ b < m
            · rw [if_pos h1, if_pos ⟨h1.1, by omega⟩]
            · by_cases h2 : a = i ∧ b < m + 1
              · exfalso
                apply h0
                have : b = m := by omega
                simp [h2.1, this]
              · rw [if_neg h1, if_neg h2]

theorem cm_outer_get {L P : Type} (net : NWN L P) (d : ℕ) :
    ∀ (m : ℕ) (G : Dok) (a b : ℕ),
      dokGet ((List.range m).foldl (cm_outer_step net d) G) (a, b) =
        if a < m ∧ b < net.wire_num then
          (match cm_val net d a b with
            | some v => v
            | none => dokGet G (a, b))
        else dokGet G (a, b) := by
  intro m
  induction m with
  | zero => intro G a b; simp
  | succ m ih =>
      intro G a b
      rw [List.range_succ, List.foldl_append, List.foldl_cons, List.foldl_nil]
      rw [show ∀ (F : Dok),
          cm_outer_step net d F m = (List.range net.wire_num).foldl (cm_inner_step net d m) F
        from fun F => rfl]
      rw [cm_inner_get net d m net.wire_num _ a b]
      by_cases h1 : a = m ∧ b < net.wire_num
      · rw [if_pos h1]
        obtain ⟨ham, hbn⟩ := h1
        cases hv : cm_val net d m b with
        | none =>
            rw [ih G a b, if_neg (by omega), if_pos ⟨by omega, hbn⟩, ham, hv]
        | some v =>
            rw [if_pos ⟨by omega, hbn⟩, ham, hv]
      · rw [if_neg h1, ih G a b]
        by_cases h2 : a < m ∧ b < net.wire_num
        · rw [if_pos h2, if_pos ⟨by omega, h2.2⟩]
        · rw [if_neg h2, if_neg (by omega)]

theorem cm_get {L P : Type} (net : NWN L P) (d a b : ℕ) (ha : a < net.wire_num)
    (hb : b < net.wire_num) :
    dokGet (conductance_matrix net d) (a, b) =
      match cm_val net d a b with
      | some v => v
      | none => 0 := by
  unfold conductance_matrix
  rw [cm_outer_get net d net.wire_num [] a b, if_pos ⟨ha, hb⟩]
  cases cm_val net d a b <;> rfl

/-! ### Conductance matrix with Python division semantics -/

theorem except_ok_bind {α β : Type} (a : α) (f : α → Except PyErr β) :
    (Except.ok a >>= f) = f a := rfl

theorem except_bind_ok {α β : Type} {x : Except PyErr α} {f : α → Except PyErr β} {b : β}
    (h : (x >>= f) = Except.ok b) : ∃ a, x = Except.ok a ∧ f a = Except.ok b := by
  cases x with
  | error e =>
      rw [show ((Except.error e : Except PyErr α) >>= f) = (Except.error e : Except PyErr β)
        from rfl] at h
      exact absurd h (by simp)
  | ok a =>
      rw [except_ok_bind] at h
      exact ⟨a, rfl, h⟩

theorem pydiv_ok_imp {a b v : ℚ} (h : pydiv a b = Except.ok v) : v = a / b := by
  unfold pydiv at h
  split at h
  · exact absurd h (by simp)
  · exact (Except.ok.inj h).symm

theorem pydiv_ok {a b : ℚ} (hb : b ≠ 0) : pydiv a b = Except.ok (a / b) := by
  unfold pydiv
  rw [if_neg hb]

theorem mapM_pydiv_ok (a : ℚ) :
    ∀ l : List ℚ, (∀ r ∈ l, r ≠ 0) →
      l.mapM (fun r => pydiv a r) = Except.ok (l.map (fun r => a / r)) := by
  intro l
  induction l with
  | nil => intro _; rfl
  | cons r rest ih =>
      intro h
      rw [List.mapM_cons, pydiv_ok (h r (by simp)), except_ok_bind,
        ih (fun x hx => h x (by simp [hx])), except_ok_bind]
      rfl

theorem mapM_pydiv_ok_imp (a : ℚ) :
    ∀ (l ts : List ℚ), l.mapM (fun r => pydiv a r) = Except.ok ts →
      ts = l.map (fun r => a / r) := by
  intro l
  induction l with
  | nil =>
      intro ts h
      rw [show (([] : List ℚ).mapM (fun r => pydiv a r)) = Except.ok ([] : List ℚ)
        from rfl] at h
      simp only [Except.ok.injEq] at h
      rw [← h]
      rfl
  | cons r rest ih =>
      intro ts h
      rw [List.mapM_cons] at h
      obtain ⟨v, hv, h2⟩ := except_bind_ok h
      obtain ⟨vs, hvs, h3⟩ := except_bind_ok h2
      rw [show (pure (v :: vs) : Except PyErr (List ℚ)) = Except.ok (v :: vs) from rfl] at h3
      simp only [Except.ok.injEq] at h3
      rw [← h3, pydiv_ok_imp hv, ih vs hvs]
      rfl

theorem foldlM_eq_ok {α β : Type} (fE : β → α → Except PyErr β) (f : β → α → β) :
    ∀ l : List α, (∀ b a, a ∈ l → fE b a = Except.ok (f b a)) →
      ∀ b, l.foldlM fE b = Except.ok (l.foldl f b) := by
  intro l
  induction l with
  | nil => intro _ b; rfl
  | cons x rest ih =>
      intro h b
      rw [List.foldlM_cons, h b x (by simp), except_ok_bind, List.foldl_cons]
      exact ih (fun b' a ha => h b' a (by simp [ha])) (f b x)

theorem foldlM_ok_imp {α β : Type} (fE : β → α → Except PyErr β) (f : β → α → β) :
    ∀ l : List α, (∀ b a r, a ∈ l → fE b a = Except.ok r → r = f b a) →
      ∀ b R, l.foldlM fE b = Except.ok R → R = l.foldl f b := by
  intro l
  induction l with
  | nil =>
      intro _ b R h
      rw [show (([] : List α).foldlM fE b) = Except.ok b from rfl] at h
      simp only [Except.ok.injEq] at h
      rw [← h, List.foldl_nil]
  | cons x rest ih =>
      intro h b R hR
      rw [List.foldlM_cons] at hR
      obtain ⟨b1, hb1, hrest⟩ := except_bind_ok hR
      have hb1' : b1 = f b x := h b x b1 (by simp) hb1
      rw [List.foldl_cons, ← hb1']
      exact ih (fun b' a r ha hr => h b' a r (by simp [ha]) hr) b1 R hrest

theorem get_edge_data_mem {L P : Type} {net : NWN L P} {i j : ℕ} {r : ℚ}
    (h : get_edge_data net i j = some r) : ∃ e ∈ net.edges, e.2 = r := by
  unfold get_edge_data at h
  cases hf : net.edges.find? (fun e => decide (e.1 = (i, j) ∨ e.1 = (j, i))) with
  | none => rw [hf] at h; exact absurd h (by simp)
  | some e =>
      rw [hf] at h
      simp only [Option.map_some', Option.some.injEq] at h
      exact ⟨e, List.mem_of_find?_eq_some hf, h⟩

theorem cm_inner_stepE_ok_imp {L P : Type} (net : NWN L P) (d i : ℕ) (G : Dok) (j : ℕ)
    (G' : Dok) (h : cm_inner_stepE net d i G j = Except.ok G') :
    G' = cm_inner_step net d i G j := by
  unfold cm_inner_stepE cm_inner_step at *
  by_cases hij : i = j
  · by_cases hd : i = d
    · rw [if_pos hij, if_pos hd] at h ⊢
      simp only [Except.ok.injEq] at h
      exact h.symm
    · rw [if_pos hij, if_neg hd] at h ⊢
      obtain ⟨ts, hts, h2⟩ := except_bind_ok h
      rw [mapM_pydiv_ok_imp 1 _ ts hts] at h2
      simp only [Except.ok.injEq] at h2
      exact h2.symm
  · rw [if_neg hij] at h ⊢
    by_cases hd : i ≠ d
    · rw [if_pos hd] at h ⊢
      cases hge : get_edge_data net i j with
      | none =>
          rw [hge] at h
          simp only [Except.ok.injEq] at h
          exact h.symm
      | some r =>
          rw [hge] at h
          obtain ⟨v, hv, h2⟩ := except_bind_ok h
          rw [pydiv_ok_imp hv] at h2
          simp only [Except.ok.injEq] at h2
          exact h2.symm
    · rw [if_neg hd] at h ⊢
      simp only [Except.ok.injEq] at h
      exact h.symm

theorem cm_inner_stepE_ok {L P : Type} (net : NWN L P) (d i : ℕ)
    (hnz : ∀ e ∈ net.edges, e.2 ≠ 0) (G : Dok) (j : ℕ) :
    cm_inner_stepE net d i G j = Except.ok (cm_inner_step net d i G j) := by
  unfold cm_inner_stepE cm_inner_step
  by_cases hij : i = j
  · by_cases hd : i = d
    · simp only [if_pos hij, if_pos hd]
    · simp only [if_pos hij, if_neg hd]
      rw [mapM_pydiv_ok 1 _ (fun r hr => of_decide_eq_true (List.mem_filter.1 hr).2),
        except_ok_bind]
  · by_cases hd : i ≠ d
    · simp only [if_neg hij, if_pos hd]
      cases hge : get_edge_data net i j with
      | none => rfl
      | some r =>
          obtain ⟨e, he, her⟩ := get_edge_data_mem hge
          show (pydiv (-1) r >>= fun v => Except.ok (py_dict_set G (i, j) v)) =
            Except.ok (py_dict_set G (i, j) (-1 / r))
          rw [pydiv_ok (her ▸ hnz e he), except_ok_bind]
    · simp only [if_neg hij, if_neg hd]

theorem conductance_matrixE_ok_imp {L P : Type} {net : NWN L P} {d : ℕ} {G : Dok}
    (h : conductance_matrixE net d = Except.ok G) : G = conductance_matrix net d := by
  unfold conductance_matrixE conductance_matrix at *
  refine foldlM_ok_imp _ _ _ ?_ [] G h
  intro b i r _ hr
  unfold cm_outer_stepE at hr
  unfold cm_outer_step
  exact foldlM_ok_imp _ _ _ (fun b' j r' _ hr' => cm_inner_stepE_ok_imp net d i b' j r' hr') b r hr

/-- C9.  When every junction resistance is non-zero, every division performed
by `conductance_matrix` has a non-zero divisor: the computation with Python's
division semantics raises nothing and returns the total-division matrix. -/
theorem conductance_matrix_total {L P : Type} (net : NWN L P) (d : ℕ)
    (hnz : ∀ e ∈ net.edges, e.2 ≠ 0) :
    conductance_matrixE net d = Except.ok (conductance_matrix net d) := by
  unfold conductance_matrixE conductance_matrix
  refine foldlM_eq_ok _ _ _ ?_ []
  intro b i _
  unfold cm_outer_stepE cm_outer_step
  exact foldlM_eq_ok _ _ _ (fun b' j _ => cm_inner_stepE_ok net d i hnz b' j) b

/-- A concrete three-wire network with junctions `(0,1)` and `(1,2)`. -/
def netA : NWN Unit Unit :=
  { wire_length := 1
    width := 1
    size := 1
    wire_density := 3
    wire_num := 3
    electrodes := 0
    junction_resistance := 10
    electrode_list := []
    nodes := [(0, ⟨(), (), false⟩), (1, ⟨(), (), false⟩), (2, ⟨(), (), false⟩)]
    edges := [((0, 1), 10), ((1, 2), 20)]
    loc := []
    junction_density := 2 }

/-- Witness for C9 on the concrete network `netA`. -/
theorem conductance_matrix_total_witness :
    conductance_matrixE netA 0 = Except.ok (conductance_matrix netA 0) :=
  conductance_matrix_total netA 0 (by decide)

/-- C3.  Whenever `conductance_matrix` completes, the matrix it returns has
`1` at the drain diagonal cell, the guarded reciprocal sum plus the `1e-8`
leakage at every other diagonal cell, and `-1/resistance` (or `0` when there
is no junction) at every off-diagonal cell outside the drain row. -/
theorem conductance_matrix_entries {L P : Type} (net : NWN L P) (d : ℕ) (G : Dok)
    (hG : conductance_matrixE net d = Except.ok G) (hd : d < net.wire_num) :
    dokGet G (d, d) = 1 ∧
    (∀ i, i < net.wire_num → i ≠ d →
      dokGet G (i, i) =
        (((incident_resistances net i).filter (fun r => decide (r ≠ 0))).map
          (fun r => 1 / r)).sum + 1 / 100000000) ∧
    (∀ i j, i < net.wire_num → j < net.wire_num → i ≠ j → i ≠ d →
      dokGet G (i, j) = ((get_edge_data net i j).map (fun r => -1 / r)).getD 0) := by
  rw [conductance_matrixE_ok_imp hG]
  refine ⟨?_, ?_, ?_⟩
  · rw [cm_get net d d d hd hd]
    simp [cm_val]
  · intro i hi hid
    rw [cm_get net d i i hi hi]
    simp [cm_val, hid]
  · intro i j hi hj hij hid
    rw [cm_get net d i j hi hj]
    simp only [cm_val, if_neg hij, if_pos (by exact hid : ¬ i = d)]
    cases get_edge_data net i j <;> rfl

/-- Witness for C3 on the concrete network `netA` with drain 2. -/
theorem conductance_matrix_entries_witness :
    dokGet (conductance_matrix netA 2) (2, 2) = 1 ∧
    dokGet (conductance_matrix netA 2) (0, 0) =
      (((incident_resistances netA 0).filter (fun r => decide (r ≠ 0))).map
        (fun r => 1 / r)).sum + 1 / 100000000 ∧
    dokGet (conductance_matrix netA 2) (0, 1) =
      ((get_edge_data netA 0 1).map (fun r => -1 / r)).getD 0 :=
  have h := conductance_matrix_entries netA 2 (conductance_matrix netA 2) rfl (by decide)
  ⟨h.1, h.2.1 0 (by decide) (by decide), h.2.2 0 1 (by decide) (by decide) (by decide) (by decide)⟩

theorem find?_congr_pred {α : Type} (p q : α → Bool) (l : List α) (h : ∀ a, p a = q a) :
    l.find? p = l.find? q := by
  induction l with
  | nil => rfl
  | cons x rest ih =>
      simp only [List.find?]
      rw [h x]
      cases q x
      · exact ih
      · rfl

theorem get_edge_data_symm {L P : Type} (net : NWN L P) (i j : ℕ) :
    get_edge_data net i j = get_edge_data net j i := by
  unfold get_edge_data
  rw [find?_congr_pred (fun e : (ℕ × ℕ) × ℚ => decide (e.1 = (i, j) ∨ e.1 = (j, i)))
    (fun e : (ℕ × ℕ) × ℚ => decide (e.1 = (j, i) ∨ e.1 = (i, j))) net.edges
    (fun e => decide_eq_decide.2 or_comm)]

/-- C8.  Away from the drain row and column, the conductance matrix is
symmetric: `G[i, j] = G[j, i]` for `i ≠ j`, both distinct from the drain. -/
theorem conductance_matrix_symmetric {L P : Type} (net : NWN L P) (d : ℕ) (G : Dok)
    (hG : conductance_matrixE net d = Except.ok G) (i j : ℕ)
    (hi : i < net.wire_num) (hj : j < net.wire_num) (hij : i ≠ j)
    (hid : i ≠ d) (hjd : j ≠ d) :
    dokGet G (i, j) = dokGet G (j, i) := by
  rw [conductance_matrixE_ok_imp hG, cm_get net d i j hi hj, cm_get net d j i hj hi]
  simp only [cm_val, if_neg hij, if_neg (Ne.symm hij), if_pos (by exact hid : ¬ i = d),
    if_pos (by exact hjd : ¬ j = d)]
  rw [get_edge_data_symm net i j]

/-- Witness for C8 on the concrete network `netA` with drain 2. -/
theorem conductance_matrix_symmetric_witness :
    dokGet (conductance_matrix netA 2) (0, 1) = dokGet (conductance_matrix netA 2) (1, 0) :=
  conductance_matrix_symmetric netA 2 (conductance_matrix netA 2) rfl 0 1
    (by decide) (by decide) (by decide) (by decide) (by decide)

/-! ### Wire count and density of `create_NWN` -/

theorem pyround_abs_le (q : ℚ) : |((pyround q : ℤ) : ℚ) - q| ≤ 1 / 2 := by
  have h0 : ((⌊q⌋ : ℤ) : ℚ) ≤ q := Int.floor_le q
  have h1 : q < ((⌊q⌋ : ℤ) : ℚ) + 1 := Int.lt_floor_add_one q
  unfold pyround
  by_cases hf1 : q - ⌊q⌋ < 1 / 2
  · rw [if_pos hf1, abs_le]
    constructor <;> linarith
  · rw [if_neg hf1]
    have hf1' : 1 / 2 ≤ q - ⌊q⌋ := le_of_not_lt hf1
    by_cases hf2 : 1 / 2 < q - ⌊q⌋
    · rw [if_pos hf2, abs_le]
      constructor <;> push_cast <;> linarith
    · rw [if_neg hf2]
      have hf2' : q - ⌊q⌋ ≤ 1 / 2 := le_of_not_lt hf2
      by_cases hp : 2 ∣ ⌊q⌋
      · rw [if_pos hp, abs_le]
        constructor <;> linarith
      · rw [if_neg hp, abs_le]
        constructor <;> push_cast <;> linarith

theorem pyround_nonneg {q : ℚ} (hq : 0 ≤ q) : 0 ≤ pyround q := by
  have h : (0 : ℤ) ≤ ⌊q⌋ := Int.le_floor.2 (by push_cast; exact hq)
  unfold pyround
  split_ifs <;> omega

/-- C5.  `create_NWN` stores `wire_num = round(width² · density)` (Python's
round: nearest integer, ties to even — the recomputed count is within `1/2`
of `width² · density`), and stores `wire_density = wire_num / width²`
exactly. -/
theorem create_NWN_wire_count {L P : Type} (g : Geom L P) (mkLine : ℕ → L)
    (wl w dens r : ℚ) (hw : 0 < w) (hd : 0 ≤ dens) :
    ((create_NWN g mkLine wl w dens r).wire_num : ℤ) = pyround (w * w * dens) ∧
    (create_NWN g mkLine wl w dens r).wire_density =
      ((create_NWN g mkLine wl w dens r).wire_num : ℚ) / (w * w) ∧
    |((create_NWN g mkLine wl w dens r).wire_num : ℚ) - w * w * dens| ≤ 1 / 2 := by
  have hq : 0 ≤ w * w * dens := mul_nonneg (mul_nonneg hw.le hw.le) hd
  have hnn : 0 ≤ pyround (w * w * dens) := pyround_nonneg hq
  have h1 : ((create_NWN g mkLine wl w dens r).wire_num : ℤ) = pyround (w * w * dens) := by
    show (((pyround (w * w * dens)).toNat : ℤ)) = pyround (w * w * dens)
    exact Int.toNat_of_nonneg hnn
  refine ⟨h1, rfl, ?_⟩
  have h2 : ((create_NWN g mkLine wl w dens r).wire_num : ℚ) =
      ((pyround (w * w * dens) : ℤ) : ℚ) := by
    exact_mod_cast h1
  rw [h2]
  exact pyround_abs_le (w * w * dens)

/-- Witness for C5 with width `5` and density `2`. -/
theorem create_NWN_wire_count_witness :
    (0 : ℚ) < 5 ∧ (0 : ℚ) ≤ 2 ∧
      ((create_NWN unitGeomT (fun _ => ()) 7 5 2 10).wire_num : ℤ) = pyround (5 * 5 * 2) :=
  ⟨by decide, by decide,
   (create_NWN_wire_count unitGeomT (fun _ => ()) 7 5 2 10 (by decide) (by decide)).1⟩

/-! ### `add_wires` input validation -/

/-- C4.  On mismatched input lengths `add_wires` raises `ValueError` before
any mutation: the network it leaves behind has the same wire count, node
dict, edge dict, electrode count and electrode list as before the call. -/
theorem add_wires_mismatch {L P : Type} (g : Geom L P) (net : NWN L P) (ls : List L)
    (es : List Bool) (h : ls.length ≠ es.length) :
    (add_wires g net ls es).2 = some PyErr.valueError ∧
    (add_wires g net ls es).1.wire_num = net.wire_num ∧
    (add_wires g net ls es).1.nodes = net.nodes ∧
    (add_wires g net ls es).1.edges = net.edges ∧
    (add_wires g net ls es).1.electrodes = net.electrodes ∧
    (add_wires g net ls es).1.electrode_list = net.electrode_list := by
  have hres : add_wires g net ls es = (net, some PyErr.valueError) := by
    unfold add_wires
    rw [if_pos h]
  rw [hres]
  exact ⟨rfl, rfl, rfl, rfl, rfl, rfl⟩

/-- Witness for C4: three segments, two electrode flags. -/
theorem add_wires_mismatch_witness :
    ([(), (), ()] : List Unit).length ≠ ([true, false] : List Bool).length ∧
      (add_wires unitGeomT netA [(), (), ()] [true, false]).2 = some PyErr.valueError ∧
      (add_wires unitGeomT netA [(), (), ()] [true, false]).1.wire_num = netA.wire_num :=
  have h := add_wires_mismatch unitGeomT netA [(), (), ()] [true, false] (by decide)
  ⟨by decide, h.1, h.2.1⟩

/-! ### `solve_network` and the `conductance_matrix` call arity -/

/-- C2.  `conductance_matrix` takes two parameters but `solve_network` calls
it with three arguments, so every invocation of `solve_network` raises
`TypeError` — whatever the solver, the network and the indices — before any
linear system is assembled or solved. -/
theorem solve_network_always_type_error {L P : Type} (spsolve : Dok → Dok → List ℚ)
    (net : NWN L P) (source_node drain_node : ℕ) (voltage : ℚ) :
    solve_network spsolve net source_node drain_node voltage =
      Except.error PyErr.typeError := rfl

/-- A concrete two-wire network with one `10 Ω` junction: a valid input for
`solve_network` (distinct, in-range source and drain). -/
def netB : NWN Unit Unit :=
  { wire_length := 1
    width := 1
    size := 1
    wire_density := 2
    wire_num := 2
    electrodes := 0
    junction_resistance := 10
    electrode_list := []
    nodes := [(0, ⟨(), (), false⟩), (1, ⟨(), (), false⟩)]
    edges := [((0, 1), 10)]
    loc := []
    junction_density := 1 }

/-- C1 (code bug).  On a valid input — source `0`, drain `1`, both in range
and distinct, voltage `5` — `solve_network` does not return a solution vector
with `x[drain] = 0` and `x[source] = V`: it raises `TypeError` at the
`conductance_matrix(NWN, source_node, drain_node)` call. -/
theorem solve_network_raises_on_valid_input :
    0 < netB.wire_num ∧ 1 < netB.wire_num ∧ (0 : ℕ) ≠ 1 ∧
      solve_network (fun _ _ => []) netB 0 1 5 = Except.error PyErr.typeError :=
  ⟨by decide, by decide, by decide, rfl⟩

/-! ### The electrode list invariant (C7) -/

/-- The node keys of a network, in node-dict order. -/
def node_keys {L P : Type} (net : NWN L P) : List ℕ :=
  net.nodes.map (fun e => e.1)

/-- The keys of the nodes whose electrode flag is set, in node-dict order. -/
def flagged_keys {L P : Type} (net : NWN L P) : List ℕ :=
  (net.nodes.filter (fun e => e.2.electrode)).map (fun e => e.1)

/-- The invariant maintained by `create_NWN` and `add_wires`: the electrode
list is exactly the flagged node keys, the node keys are strictly increasing,
and every node key is below `wire_num`. -/
def NWNInv {L P : Type} (net : NWN L P) : Prop :=
  net.electrode_list = flagged_keys net ∧
  (node_keys net).Pairwise (· < ·) ∧
  ∀ k ∈ node_keys net, k < net.wire_num

theorem add_wire_step_nodes {L P : Type} (g : Geom L P) (start_ind : ℕ) (acc : NWN L P)
    (j : ℕ) (l : L) (e : Bool) (hfresh : ∀ x ∈ acc.nodes, x.1 ≠ start_ind + j) :
    (add_wire_step g start_ind acc (j, (l, e))).nodes =
      acc.nodes ++ [(start_ind + j, ⟨l, g.centroid l, e⟩)] := by
  cases e
  · exact py_dict_set_eq_append hfresh _
  · exact py_dict_set_eq_append hfresh _

theorem add_wire_step_electrode_list {L P : Type} (g : Geom L P) (start_ind : ℕ)
    (acc : NWN L P) (j : ℕ) (l : L) (e : Bool) :
    (add_wire_step g start_ind acc (j, (l, e))).electrode_list =
      acc.electrode_list ++ (if e then [start_ind + j] else []) := by
  cases e
  · show acc.electrode_list = acc.electrode_list ++ []
    rw [List.append_nil]
  · rfl

theorem add_wire_step_wire_num {L P : Type} (g : Geom L P) (start_ind : ℕ)
    (acc : NWN L P) (j : ℕ) (l : L) (e : Bool) :
    (add_wire_step g start_ind acc (j, (l, e))).wire_num = acc.wire_num := by
  cases e <;> rfl

theorem add_wire_step_electrodes {L P : Type} (g : Geom L P) (start_ind : ℕ)
    (acc : NWN L P) (j : ℕ) (l : L) (e : Bool) :
    (add_wire_step g start_ind acc (j, (l, e))).electrodes = acc.electrodes := by
  cases e <;> rfl

theorem add_wires_loop_inv {L P : Type} (g : Geom L P) (start_ind : ℕ) :
    ∀ (ps : List (L × Bool)) (j : ℕ) (acc : NWN L P),
      acc.electrode_list = flagged_keys acc →
      (node_keys acc).Pairwise (· < ·) →
      (∀ k ∈ node_keys acc, k < start_ind + j) →
      ((List.enumFrom j ps).foldl (add_wire_step g start_ind) acc).electrode_list =
          flagged_keys ((List.enumFrom j ps).foldl (add_wire_step g start_ind) acc) ∧
      (node_keys ((List.enumFrom j ps).foldl (add_wire_step g start_ind) acc)).Pairwise (· < ·) ∧
      (∀ k ∈ node_keys ((List.enumFrom j ps).foldl (add_wire_step g start_ind) acc),
        k < start_ind + j + ps.length) ∧
      ((List.enumFrom j ps).foldl (add_wire_step g start_ind) acc).wire_num = acc.wire_num ∧
      ((List.enumFrom j ps).foldl (add_wire_step g start_ind) acc).electrodes = acc.electrodes := by
  intro ps
  induction ps with
  | nil =>
      intro j acc hel hpw hb
      exact ⟨hel, hpw, fun k hk => by have := hb k hk; omega, rfl, rfl⟩
  | cons p rest ih =>
      intro j acc hel hpw hb
      obtain ⟨l, e⟩ := p
      rw [show List.enumFrom j ((l, e) :: rest) = (j, (l, e)) :: List.enumFrom (j + 1) rest
        from rfl]
      rw [List.foldl_cons]
      have hfresh : ∀ x ∈ acc.nodes, x.1 ≠ start_ind + j := by
        intro x hx
        have hk : x.1 ∈ node_keys acc := List.mem_map_of_mem _ hx
        have := hb x.1 hk
        omega
      have hn := add_wire_step_nodes g start_ind acc j l e hfresh
      have hnk : node_keys (add_wire_step g start_ind acc (j, (l, e))) =
          node_keys acc ++ [start_ind + j] := by
        unfold node_keys
        rw [hn, List.map_append]
        rfl
      have hel' : (add_wire_step g start_ind acc (j, (l, e))).electrode_list =
          flagged_keys (add_wire_step g start_ind acc (j, (l, e))) := by
        rw [add_wire_step_electrode_list, hel]
        unfold flagged_keys
        rw [hn, List.filter_append, List.map_append]
        cases e
        · rfl
        · rfl
      have hpw' : (node_keys (add_wire_step g start_ind acc (j, (l, e)))).Pairwise (· < ·) := by
        rw [hnk, List.pairwise_append]
        refine ⟨hpw, by simp, ?_⟩
        intro a ha b hbmem
        simp only [List.mem_singleton] at hbmem
        subst hbmem
        have := hb a ha
        omega
      have hb' : ∀ k ∈ node_keys (add_wire_step g start_ind acc (j, (l, e))),
          k < start_ind + (j + 1) := by
        intro k hk
        rw [hnk] at hk
        rcases List.mem_append.1 hk with hk | hk
        · have := hb k hk; omega
        · simp only [List.mem_singleton] at hk; omega
      obtain ⟨c1, c2, c3, c4, c5⟩ := ih (j + 1) (add_wire_step g start_ind acc (j, (l, e)))
        hel' hpw' hb'
      refine ⟨c1, c2, fun k hk => by
        have := c3 k hk
        have hlen : ((l, e) :: rest).length = rest.length + 1 := rfl
        omega, ?_, ?_⟩
      · rw [c4, add_wire_step_wire_num]
      · rw [c5, add_wire_step_electrodes]

theorem create_NWN_inv {L P : Type} (g : Geom L P) (mkLine : ℕ → L)
    (wl w dens r : ℚ) : NWNInv (create_NWN g mkLine wl w dens r) := by
  refine ⟨?_, ?_, ?_⟩
  · show ([] : List ℕ) = flagged_keys (create_NWN g mkLine wl w dens r)
    unfold flagged_keys
    have hflt : (create_NWN g mkLine wl w dens r).nodes.filter (fun e => e.2.electrode) = [] := by
      rw [List.filter_eq_nil_iff]
      intro x hx
      simp only [create_NWN, List.mem_map] at hx
      obtain ⟨i, _, rfl⟩ := hx
      simp
    rw [hflt]
    rfl
  · show (node_keys (create_NWN g mkLine wl w dens r)).Pairwise (· < ·)
    unfold node_keys
    simp only [create_NWN]
    rw [List.map_map, List.pairwise_map]
    exact List.pairwise_lt_range _
  · intro k hk
    unfold node_keys at hk
    simp only [create_NWN, List.map_map, List.mem_map, List.mem_range] at hk
    obtain ⟨i, hi, rfl⟩ := hk
    exact hi

theorem add_wires_ok_fields {L P : Type} (g : Geom L P) (net : NWN L P) (ls : List L)
    (es : List Bool) (h : ¬ ls.length ≠ es.length) :
    (add_wires g net ls es).1.nodes =
        (((ls.zip es).enum).foldl (add_wire_step g net.wire_num)
          { net with
            wire_num := net.wire_num + ls.length
            electrodes := net.electrodes + es.countP (fun b => b) }).nodes ∧
    (add_wires g net ls es).1.electrode_list =
        (((ls.zip es).enum).foldl (add_wire_step g net.wire_num)
          { net with
            wire_num := net.wire_num + ls.length
            electrodes := net.electrodes + es.countP (fun b => b) }).electrode_list ∧
    (add_wires g net ls es).1.wire_num =
        (((ls.zip es).enum).foldl (add_wire_step g net.wire_num)
          { net with
            wire_num := net.wire_num + ls.length
            electrodes := net.electrodes + es.countP (fun b => b) }).wire_num := by
  unfold add_wires
  rw [if_neg h]
  exact ⟨rfl, rfl, rfl⟩

theorem add_wires_inv {L P : Type} (g : Geom L P) (net : NWN L P) (ls : List L)
    (es : List Bool) (hInv : NWNInv net) : NWNInv (add_wires g net ls es).1 := by
  obtain ⟨hel, hpw, hb⟩ := hInv
  by_cases h : ls.length ≠ es.length
  · have hres : (add_wires g net ls es).1 = net := by
      unfold add_wires
      rw [if_pos h]
    rw [hres]
    exact ⟨hel, hpw, hb⟩
  · obtain ⟨h1, h2, h3⟩ := add_wires_ok_fields g net ls es h
    have henum : (ls.zip es).enum = List.enumFrom 0 (ls.zip es) := rfl
    rw [henum] at h1 h2 h3
    have hloop := add_wires_loop_inv g net.wire_num (ls.zip es) 0
      { net with
        wire_num := net.wire_num + ls.length
        electrodes := net.electrodes + es.countP (fun b => b) }
      hel hpw (fun k hk => by have := hb k hk; omega)
    obtain ⟨c1, c2, c3, c4, c5⟩ := hloop
    have heq : ls.length = es.length := not_not.1 h
    have hzl : (ls.zip es).length = ls.length := by
      rw [List.length_zip]
      omega
    refine ⟨?_, ?_, ?_⟩
    · show (add_wires g net ls es).1.electrode_list = flagged_keys (add_wires g net ls es).1
      unfold flagged_keys
      rw [h1, h2]
      unfold flagged_keys at c1
      exact c1
    · show (node_keys (add_wires g net ls es).1).Pairwise (· < ·)
      unfold node_keys
      rw [h1]
      unfold node_keys at c2
      exact c2
    · intro k hk
      unfold node_keys at hk
      rw [h1] at hk
      unfold node_keys at c3
      have hk3 := c3 k hk
      rw [h3, c4]
      show k < net.wire_num + ls.length
      omega

theorem applyWires_inv {L P : Type} (g : Geom L P) :
    ∀ (bs : List (List L × List Bool)) (net out : NWN L P),
      NWNInv net → applyWires g net bs = some out → NWNInv out := by
  intro bs
  induction bs with
  | nil =>
      intro net out h hap
      have : net = out := Option.some.inj hap
      rw [← this]
      exact h
  | cons b rest ih =>
      intro net out h hap
      unfold applyWires at hap
      cases hadd : add_wires g net b.1 b.2 with
      | mk net' err =>
          rw [hadd] at hap
          cases err with
          | none =>
              refine ih net' out ?_ hap
              have := add_wires_inv g net b.1 b.2 h
              rw [hadd] at this
              exact this
          | some e => exact absurd hap (by simp)

/-- C7.  In every network reachable by `create_NWN` followed by a sequence of
successful `add_wires` calls, `electrode_list` is exactly the list of node
keys whose electrode flag is set, and that list is strictly increasing (so the
insertion-order appends coincide with sorted order). -/
theorem electrode_list_exact {L P : Type} (g : Geom L P) (mkLine : ℕ → L)
    (wl w dens r : ℚ) (bs : List (List L × List Bool)) (net : NWN L P)
    (h : applyWires g (create_NWN g mkLine wl w dens r) bs = some net) :
    net.electrode_list = (net.nodes.filter (fun e => e.2.electrode)).map (fun e => e.1) ∧
    net.electrode_list.Pairwise (· < ·) := by
  have hInv := applyWires_inv g bs _ net (create_NWN_inv g mkLine wl w dens r) h
  obtain ⟨hel, hpw, _⟩ := hInv
  refine ⟨hel, ?_⟩
  rw [hel]
  exact List.Pairwise.sublist ((List.filter_sublist _).map _) hpw

/-- A trivial concrete geometry on which no pair of lines intersects. -/
def noGeom : Geom Unit Unit :=
  { intersects := fun _ _ => false
    intersection := fun _ _ => ()
    centroid := fun _ => () }

/-- Witness for C7: one generated wire, then one electrode wire added. -/
theorem electrode_list_exact_witness :
    applyWires noGeom (create_NWN noGeom (fun _ => ()) 7 1 1 10) [([()], [true])] =
      some ((add_wires noGeom (create_NWN noGeom (fun _ => ()) 7 1 1 10) [()] [true]).1) ∧
    ((add_wires noGeom (create_NWN noGeom (fun _ => ()) 7 1 1 10) [()] [true]).1).electrode_list =
      (((add_wires noGeom (create_NWN noGeom (fun _ => ()) 7 1 1 10) [()] [true]).1).nodes.filter
        (fun e => e.2.electrode)).map (fun e => e.1) :=
  ⟨rfl,
   (electrode_list_exact noGeom (fun _ => ()) 7 1 1 10 [([()], [true])]
     ((add_wires noGeom (create_NWN noGeom (fun _ => ()) 7 1 1 10) [()] [true]).1) rfl).1⟩

end RandomNWN
